import Mathlib

/-!
# A depth-bounded, de-duplicating web crawler (`exercise-web-crawler.go`)

Shallow embedding of the Go program and proofs about it.

Modelling decisions:

* A Go `error` value is represented by its message (`GoError`), `nil` by `none`.
* A `Fetcher` is a function from identifiers to fetch results: the same
  identifier always gives the same answer.
* `map[string]bool` is a partial function `String → Option Bool`; the map is
  allocated (as `main` does with `make`).  The mutex has no sequential content
  and is not represented.
* Effects of `Crawl` (calls of `Fetch`, the two print statements, the updates
  of the shared set) are threaded through an explicit `State`.
* The goroutines spawned for the neighbours are run one after another, in
  neighbour order, each to completion before the next one starts (the strict
  schedule); `wg.Wait()` is then the end of the loop.  This is one of the
  schedules of the program.  `runSched` follows the program under other
  schedules, and runs `Crawl` under the schedule that always picks the first
  goroutine of the pool.
-/

namespace WebCrawler

/-- A Go `error` that is not `nil`, represented by its message. -/
abbrev GoError := String

/-- The three results of `Fetch(url) (body string, urls []string, err error)`. -/
structure FetchResult where
  body : String
  urls : List String
  err : Option GoError
deriving DecidableEq, Repr

/-- The interface `Fetcher` (source lines 8-12). -/
structure Fetcher where
  Fetch : String → FetchResult

/-- The struct `ConcurrentSet` (source lines 14-17): the map `s`. -/
structure ConcurrentSet where
  s : String → Option Bool

/-- The value `ConcurrentSet{s: make(map[string]bool)}` built by `main` (line 70). -/
def ConcurrentSet.make : ConcurrentSet := ⟨fun _ => none⟩

/-- The method `GetValue` (lines 19-24): `_, ok := set.s[url]; return ok`.
Returns `ok` together with the set after the call. -/
def ConcurrentSet.GetValue (set : ConcurrentSet) (url : String) : Bool × ConcurrentSet :=
  ((set.s url).isSome, set)

/-- The method `InsertValue` (lines 26-31): `set.s[url] = true`. -/
def ConcurrentSet.InsertValue (set : ConcurrentSet) (url : String) : ConcurrentSet :=
  ⟨fun k => if k = url then some true else set.s k⟩

/-- What `Crawl` does to the outside world, in program order. -/
inductive Event where
  /-- The call `fetcher.Fetch(url)` at line 45. -/
  | fetch (url : String)
  /-- The statement `fmt.Println("err: ", err)` at line 47, with its operand `err`. -/
  | printErr (err : GoError)
  /-- The statement `fmt.Printf("found: %s %q\n", url, body)` at line 51, with its
  operands `url` and `body`. -/
  | printFound (url body : String)
deriving DecidableEq, Repr

/-- The shared set together with the log of events so far. -/
structure State where
  set : ConcurrentSet
  trace : List Event

/-- The function `Crawl` (lines 35-67) in the schedule where each goroutine spawned at
line 56 runs to completion before the next one is started: the children run one after
another in neighbour order.  Other schedules are followed by `runSched` below. -/
def Crawl (url : String) (depth : Int) (fetcher : Fetcher) (st : State) : State :=
  if _h : depth ≤ 0 then
    st
  else
    let (ok, set) := st.set.GetValue url
    if !ok then
      let set := set.InsertValue url
      let r := fetcher.Fetch url
      let st : State := ⟨set, st.trace ++ [Event.fetch url]⟩
      match r.err with
      | some err => ⟨st.set, st.trace ++ [Event.printErr err]⟩
      | none =>
        let st : State := ⟨st.set, st.trace ++ [Event.printFound url r.body]⟩
        r.urls.foldl (fun st u => Crawl u (depth - 1) fetcher st) st
    else
      ⟨set, st.trace⟩
termination_by depth.toNat
decreasing_by omega

/-- An entry of the canned table: the struct `fakeResult` (lines 77-80). -/
structure fakeResult where
  body : String
  urls : List String
deriving DecidableEq, Repr

/-- The type `fakeFetcher` (line 75): a table from identifiers to canned results. -/
abbrev fakeFetcher := List (String × fakeResult)

/-- The method `fakeFetcher.Fetch` (lines 82-87). -/
def fakeFetcher.Fetch (f : fakeFetcher) (url : String) : FetchResult :=
  match f.lookup url with
  | some res => ⟨res.body, res.urls, none⟩
  | none => ⟨"", [], some ("not found: " ++ url)⟩

/-- A `fakeFetcher` used as a `Fetcher`. -/
def fakeFetcher.toFetcher (f : fakeFetcher) : Fetcher := ⟨fakeFetcher.Fetch f⟩

/-- The populated table `fetcher` (lines 90-121). -/
def fetcher : fakeFetcher :=
  [ ("https://golang.org/",
      ⟨"The Go Programming Language",
       ["https://golang.org/pkg/", "https://golang.org/cmd/"]⟩),
    ("https://golang.org/pkg/",
      ⟨"Packages",
       ["https://golang.org/", "https://golang.org/cmd/",
        "https://golang.org/pkg/fmt/", "https://golang.org/pkg/os/"]⟩),
    ("https://golang.org/pkg/fmt/",
      ⟨"Package fmt", ["https://golang.org/", "https://golang.org/pkg/"]⟩),
    ("https://golang.org/pkg/os/",
      ⟨"Package os", ["https://golang.org/", "https://golang.org/pkg/"]⟩) ]

/-- The body of `Crawl` with a counter for the nesting of calls: `fuel` bounds how
many calls that get past both guards may be nested in one another, and the answer
is `none` when the counter runs out.  The membership test is the parameter `seen`,
so that the same body can be read with the test of the source or with any other
one (for instance one that never prunes). -/
def CrawlFuel (seen : ConcurrentSet → String → Bool) :
    Nat → String → Int → Fetcher → State → Option State
  | 0, url, depth, _, st =>
    if depth ≤ 0 then some st
    else if !seen st.set url then none
    else some st
  | fuel + 1, url, depth, fetcher, st =>
    if depth ≤ 0 then some st
    else if !seen st.set url then
      let set := st.set.InsertValue url
      let r := fetcher.Fetch url
      let st : State := ⟨set, st.trace ++ [Event.fetch url]⟩
      match r.err with
      | some err => some ⟨st.set, st.trace ++ [Event.printErr err]⟩
      | none =>
        let st : State := ⟨st.set, st.trace ++ [Event.printFound url r.body]⟩
        r.urls.foldlM (fun st u => CrawlFuel seen fuel u (depth - 1) fetcher st) st
    else some st

/-- The membership test of the source: the first component of `GetValue`. -/
def seenInSet (set : ConcurrentSet) (url : String) : Bool := (set.GetValue url).1

/-- The identifiers on which `Fetch` was called, in call order. -/
def fetched : List Event → List String
  | [] => []
  | Event.fetch u :: t => u :: fetched t
  | _ :: t => fetched t

/-- The print statements executed, in order. -/
def reports : List Event → List Event
  | [] => []
  | Event.fetch _ :: t => reports t
  | e :: t => e :: reports t

/-- The neighbour list that `Crawl` follows from `u`: the fetched list when
`Fetch` succeeds, nothing when it fails. -/
def links (f : Fetcher) (u : String) : List String :=
  match (f.Fetch u).err with
  | none => (f.Fetch u).urls
  | some _ => []

/-- One neighbour link: `Fetch(a)` succeeds and `b` is in the list it returns. -/
def Link (f : Fetcher) (a b : String) : Prop :=
  (f.Fetch a).err = none ∧ b ∈ (f.Fetch a).urls

instance (f : Fetcher) (a b : String) : Decidable (Link f a b) :=
  inferInstanceAs (Decidable ((f.Fetch a).err = none ∧ b ∈ (f.Fetch a).urls))

/-- The set obtained from `set` by the calls `InsertValue(u)` for `u` in `us`. -/
def insertAll (us : List String) (set : ConcurrentSet) : ConcurrentSet :=
  us.foldl ConcurrentSet.InsertValue set

/-- The identifiers joined to `root` by a chain of exactly `n` neighbour links,
each taken from the neighbour list of a successfully fetched identifier. -/
def reachLayer (f : Fetcher) (root : String) : Nat → List String
  | 0 => [root]
  | n + 1 => (reachLayer f root n).flatMap (links f)

/-- The identifiers joined to `root` by a chain of fewer than `d` links. -/
def reachWithin (f : Fetcher) (root : String) (d : Int) : List String :=
  (List.range d.toNat).flatMap (reachLayer f root)

/-- The list `p` is a chain of neighbour links from `a` to `b` on which no identifier
occurs twice. -/
def SimpleChain (f : Fetcher) (p : List String) (a b : String) : Prop :=
  p.head? = some a ∧ p.getLast? = some b ∧ List.Chain' (Link f) p ∧ p.Nodup

/-- The loop of lines 53-63 followed by `wg.Wait()`: one `Crawl` per neighbour. -/
def crawlAll (urls : List String) (depth : Int) (fetcher : Fetcher) (st : State) : State :=
  urls.foldl (fun st u => Crawl u depth fetcher st) st

/-- The print statement that follows the call `Fetch(u)`. -/
def reportOf (f : Fetcher) (u : String) : Event :=
  match (f.Fetch u).err with
  | some err => Event.printErr err
  | none => Event.printFound u (f.Fetch u).body

/-- The events of one fetching call before its loop: the call and its report. -/
def block (f : Fetcher) (u : String) : List Event := [Event.fetch u, reportOf f u]

/-- The state `st'` is `st` after fetching exactly the identifiers `F`, in that
order, none of which was in the set of `st`. -/
structure Grows (f : Fetcher) (st st' : State) (F : List String) : Prop where
  trace_eq : st'.trace = st.trace ++ F.flatMap (block f)
  set_eq : ∀ k, st'.set.s k = if k ∈ F then some true else st.set.s k
  nodup : F.Nodup
  fresh : ∀ v ∈ F, st.set.s v = none

/-- What a call `Crawl url depth f st` ending in `st'` has done: it fetched the
fresh identifiers `F`, each at the end of some chain of `m` links from `url` within the
depth bound, starting with `url` itself when the call gets past both guards; when
a budget of at least 2 was left after those `m` links, every neighbour of the fetched
identifier is in the set at the end; and the `m` links can be taken through identifiers
fetched by this call, without repetition. -/
structure CallOk (f : Fetcher) (url : String) (depth : Int) (st st' : State)
    (F : List String) : Prop where
  grows : Grows f st st' F
  near : ∀ v ∈ F, ∃ m : Nat, (m : Int) < depth ∧ v ∈ reachLayer f url m ∧
    ((m : Int) + 1 < depth → ∀ w ∈ links f v, (st'.set.s w).isSome = true) ∧
    ∃ p : List String, SimpleChain f p url v ∧ p.length = m + 1 ∧ ∀ x ∈ p, x ∈ F
  first : 0 < depth → st.set.s url = none → F.head? = some url

/-- What the loop over `urls` has done: the same, from one of the neighbours, and
every neighbour is in the set at the end when the budget is positive. -/
structure LoopOk (f : Fetcher) (urls : List String) (depth : Int) (st st' : State)
    (F : List String) : Prop where
  grows : Grows f st st' F
  near : ∀ v ∈ F, ∃ u ∈ urls, ∃ m : Nat, (m : Int) < depth ∧ v ∈ reachLayer f u m ∧
    ((m : Int) + 1 < depth → ∀ w ∈ links f v, (st'.set.s w).isSome = true) ∧
    ∃ p : List String, SimpleChain f p u v ∧ p.length = m + 1 ∧ ∀ x ∈ p, x ∈ F
  marked : 0 < depth → ∀ u ∈ urls, (st'.set.s u).isSome = true

/-! ## Other schedules

`Crawl` above runs the goroutines of lines 56-62 one after another.  To follow the
program under another schedule, the goroutines that still have statements to execute
are kept in a pool, and a schedule says which of them runs next.  A goroutine runs
without interruption from the top of `Crawl` to the end of the test of line 43, and from
the mark of line 44 to the end of the loop of lines 53-63; after that it has only
`wg.Wait()` left and is no longer in the pool.  Every run below is therefore a run of the
program (the program has more: it can also be interrupted inside these two stretches),
and the call of `main` has returned when the pool is empty. -/

/-- A goroutine executing `Crawl(url, depth, fetcher, set)`: at the top of the function,
or between the test of line 43, which it has passed, and the mark of line 44. -/
inductive Task where
  | start (url : String) (depth : Int)
  | passed (url : String) (depth : Int)
deriving DecidableEq, Repr

/-- The shared state and the goroutines that have not reached `wg.Wait()`; the
goroutines spawned by one loop stand in neighbour order. -/
structure Config where
  st : State
  pool : List Task

/-- One goroutine runs to its next stop: from `start`, lines 39-43; from `passed`,
lines 44-63.  The result is the new shared state and what takes the place of the
goroutine in the pool: itself at `passed`, the goroutines it has spawned, or nothing. -/
def advance (fetcher : Fetcher) (t : Task) (st : State) : State × List Task :=
  match t with
  | Task.start url depth =>
    if depth ≤ 0 then
      (st, [])
    else
      let (ok, set) := st.set.GetValue url
      if !ok then (⟨set, st.trace⟩, [Task.passed url depth])
      else (⟨set, st.trace⟩, [])
  | Task.passed url depth =>
    let set := st.set.InsertValue url
    let r := fetcher.Fetch url
    let st : State := ⟨set, st.trace ++ [Event.fetch url]⟩
    match r.err with
    | some err => (⟨st.set, st.trace ++ [Event.printErr err]⟩, [])
    | none =>
      (⟨st.set, st.trace ++ [Event.printFound url r.body]⟩,
       r.urls.map (fun u => Task.start u (depth - 1)))

/-- The goroutine at position `i` of the pool runs to its next stop (nothing happens
when there is none at that position). -/
def step (fetcher : Fetcher) (i : Nat) (c : Config) : Config :=
  match c.pool[i]? with
  | none => c
  | some t => ⟨(advance fetcher t c.st).1,
      c.pool.take i ++ (advance fetcher t c.st).2 ++ c.pool.drop (i + 1)⟩

/-- The run under a schedule: the positions of the goroutines that run, in order. -/
def runSched (fetcher : Fetcher) (sched : List Nat) (c : Config) : Config :=
  sched.foldl (fun c i => step fetcher i c) c

/-- A cycle: `R → A → R`. -/
def cycleFetcher : Fetcher :=
  fakeFetcher.toFetcher [("R", ⟨"r", ["A"]⟩), ("A", ⟨"a", ["R"]⟩)]

/-- The node `B` is a neighbour of the root and of the root's first neighbour:
`R → A, B`, `A → B`, `B → C`. -/
def shortcutFetcher : Fetcher :=
  fakeFetcher.toFetcher [("R", ⟨"r", ["A", "B"]⟩), ("A", ⟨"a", ["B"]⟩),
    ("B", ⟨"b", ["C"]⟩), ("C", ⟨"c", []⟩)]

/-- A fetcher on which every `Fetch` fails with the same error. -/
def failingFetcher : Fetcher := ⟨fun _ => ⟨"", [], some "boom"⟩⟩

/-- A parent `P → A, B` where `Fetch(A)` fails although it names a neighbour `X`,
which no other identifier links to. -/
def siblingFetcher : Fetcher :=
  ⟨fun u =>
    if u = "P" then ⟨"p", ["A", "B"], none⟩
    else if u = "A" then ⟨"", ["X"], some "down"⟩
    else if u = "B" then ⟨"b", [], none⟩
    else ⟨"x", [], none⟩⟩

/-! ## Unfolding `Crawl` -/

theorem Crawl_nonpos {url : String} {depth : Int} {f : Fetcher} {st : State}
    (h : depth ≤ 0) : Crawl url depth f st = st := by
  rw [Crawl]; simp [h]

theorem Crawl_seen {url : String} {depth : Int} {f : Fetcher} {st : State}
    (h : (st.set.s url).isSome = true) : Crawl url depth f st = st := by
  rw [Crawl]
  by_cases hd : depth ≤ 0
  · simp [hd]
  · simp [hd, ConcurrentSet.GetValue, h]

theorem Crawl_err {url : String} {depth : Int} {f : Fetcher} {st : State} {e : GoError}
    (hd : 0 < depth) (hs : st.set.s url = none) (he : (f.Fetch url).err = some e) :
    Crawl url depth f st =
      ⟨st.set.InsertValue url, st.trace ++ [Event.fetch url, Event.printErr e]⟩ := by
  rw [Crawl]
  have hd' : ¬ depth ≤ 0 := by omega
  simp [hd', ConcurrentSet.GetValue, hs, he]

theorem Crawl_ok {url : String} {depth : Int} {f : Fetcher} {st : State}
    (hd : 0 < depth) (hs : st.set.s url = none) (he : (f.Fetch url).err = none) :
    Crawl url depth f st =
      crawlAll (f.Fetch url).urls (depth - 1) f
        ⟨st.set.InsertValue url,
         st.trace ++ [Event.fetch url, Event.printFound url (f.Fetch url).body]⟩ := by
  rw [Crawl]
  have hd' : ¬ depth ≤ 0 := by omega
  simp [hd', ConcurrentSet.GetValue, hs, he, crawlAll]

/-! ## What one call adds to the state -/

theorem Grows.refl (f : Fetcher) (st : State) : Grows f st st [] :=
  ⟨by simp, by simp, List.nodup_nil, by simp⟩

theorem Grows.trans {f : Fetcher} {st st' st'' : State} {F G : List String}
    (h1 : Grows f st st' F) (h2 : Grows f st' st'' G) : Grows f st st'' (F ++ G) := by
  have hdisj : ∀ v ∈ G, v ∉ F := by
    intro v hv hF
    have := h2.fresh v hv
    rw [h1.set_eq, if_pos hF] at this
    cases this
  refine ⟨?_, ?_, ?_, ?_⟩
  · rw [h2.trace_eq, h1.trace_eq, List.flatMap_append, List.append_assoc]
  · intro k
    rw [h2.set_eq, h1.set_eq]
    by_cases hG : k ∈ G
    · simp [hG]
    · by_cases hF : k ∈ F <;> simp [hG, hF]
  · rw [List.nodup_append]
    exact ⟨h1.nodup, h2.nodup, fun _ hF hG => hdisj _ hG hF⟩
  · intro v hv
    rcases List.mem_append.1 hv with hF | hG
    · exact h1.fresh v hF
    · have := h2.fresh v hG
      rw [h1.set_eq, if_neg (hdisj v hG)] at this
      exact this

theorem Grows.mono {f : Fetcher} {st st' : State} {F : List String}
    (h : Grows f st st' F) {k : String} (hk : (st.set.s k).isSome = true) :
    (st'.set.s k).isSome = true := by
  rw [h.set_eq]
  by_cases hF : k ∈ F <;> simp [hF, hk]

/-- The first step of a fetching call: mark, fetch, report. -/
theorem Grows.step (f : Fetcher) (st : State) (url : String) (hs : st.set.s url = none) :
    Grows f st ⟨st.set.InsertValue url, st.trace ++ [Event.fetch url, reportOf f url]⟩
      [url] := by
  refine ⟨by simp [block], ?_, List.nodup_singleton _, by simpa using hs⟩
  intro k
  simp [ConcurrentSet.InsertValue]

/-! ## Chains of neighbour links -/

/-- A chain of `m + 1` links is a first link followed by a chain of `m` links. -/
theorem reachLayer_succ_left (f : Fetcher) (root : String) (m : Nat) :
    reachLayer f root (m + 1) = (links f root).flatMap (fun u => reachLayer f u m) := by
  induction m with
  | zero => simp [reachLayer]
  | succ m ih =>
    rw [reachLayer, ih, List.flatMap_assoc]
    rfl

theorem reachLayer_step {f : Fetcher} {root u v : String} {m : Nat}
    (hu : u ∈ links f root) (hv : v ∈ reachLayer f u m) : v ∈ reachLayer f root (m + 1) := by
  rw [reachLayer_succ_left]
  exact List.mem_flatMap.2 ⟨u, hu, hv⟩

theorem links_of_ok {f : Fetcher} {u : String} (he : (f.Fetch u).err = none) :
    links f u = (f.Fetch u).urls := by
  simp [links, he]

theorem links_of_err {f : Fetcher} {u : String} {e : GoError}
    (he : (f.Fetch u).err = some e) : links f u = [] := by
  simp [links, he]

theorem simpleChain_single (f : Fetcher) (url v : String) (h : v = url) :
    SimpleChain f [url] url v :=
  ⟨rfl, by simp [h], List.chain'_singleton _, List.nodup_singleton _⟩

theorem simpleChain_cons {f : Fetcher} {url u v : String} {p : List String}
    (hl : Link f url u) (hp : SimpleChain f p u v) (hnew : url ∉ p) :
    SimpleChain f (url :: p) url v := by
  obtain ⟨hh, hlast, hc, hn⟩ := hp
  refine ⟨rfl, ?_, ?_, List.nodup_cons.2 ⟨hnew, hn⟩⟩
  · cases p with
    | nil => simp at hh
    | cons a t => rw [List.getLast?_cons_cons]; exact hlast
  · apply hc.cons'
    intro y hy
    rw [hh] at hy
    have : y = u := (Option.mem_some_iff.1 hy).symm
    rw [this]; exact hl

/-! ## The summary of a call and of a loop -/

theorem CallOk.marked {f : Fetcher} {url : String} {depth : Int} {st st' : State}
    {F : List String} (h : CallOk f url depth st st' F) (hd : 0 < depth) :
    (st'.set.s url).isSome = true := by
  cases hs : st.set.s url with
  | some b => exact h.grows.mono (by simp [hs])
  | none =>
    have hF : url ∈ F := List.mem_of_mem_head? (h.first hd hs)
    rw [h.grows.set_eq, if_pos hF]; rfl

theorem crawlAll_loopOk (f : Fetcher) (depth : Int)
    (H : ∀ url st, ∃ F, CallOk f url depth st (Crawl url depth f st) F) :
    ∀ urls st, ∃ F, LoopOk f urls depth st (crawlAll urls depth f st) F := by
  intro urls
  induction urls with
  | nil =>
    intro st
    exact ⟨[], Grows.refl f st, by simp, by simp⟩
  | cons u us ih =>
    intro st
    obtain ⟨F, hF⟩ := H u st
    obtain ⟨G, hG⟩ := ih (Crawl u depth f st)
    have hfold : crawlAll (u :: us) depth f st = crawlAll us depth f (Crawl u depth f st) := rfl
    rw [hfold]
    refine ⟨F ++ G, hF.grows.trans hG.grows, ?_, ?_⟩
    · intro v hv
      rcases List.mem_append.1 hv with h | h
      · obtain ⟨m, hm, hr, hcl, p, hp, hlen, hsub⟩ := hF.near v h
        exact ⟨u, List.mem_cons_self _ _, m, hm, hr,
          fun hlt w hw => hG.grows.mono (hcl hlt w hw), p, hp, hlen,
          fun x hx => List.mem_append_left _ (hsub x hx)⟩
      · obtain ⟨w, hw, m, hm, hr, hcl, p, hp, hlen, hsub⟩ := hG.near v h
        exact ⟨w, List.mem_cons_of_mem _ hw, m, hm, hr, hcl, p, hp, hlen,
          fun x hx => List.mem_append_right _ (hsub x hx)⟩
    · intro hd w hw
      rcases List.mem_cons.1 hw with rfl | hw
      · exact hG.grows.mono (hF.marked hd)
      · exact hG.marked hd w hw

theorem Crawl_callOk_aux (f : Fetcher) :
    ∀ (n : Nat) (url : String) (depth : Int) (st : State), depth.toNat = n →
      ∃ F, CallOk f url depth st (Crawl url depth f st) F := by
  intro n
  induction n with
  | zero =>
    intro url depth st hn
    have hd : depth ≤ 0 := by omega
    rw [Crawl_nonpos hd]
    exact ⟨[], Grows.refl f st, by simp, fun h => by omega⟩
  | succ n ih =>
    intro url depth st hn
    have hd : 0 < depth := by omega
    cases hs : st.set.s url with
    | some b =>
      rw [Crawl_seen (by simp [hs])]
      exact ⟨[], Grows.refl f st, by simp, fun _ h => by rw [hs] at h; cases h⟩
    | none =>
      cases he : (f.Fetch url).err with
      | some e =>
        rw [Crawl_err hd hs he]
        have hstep := Grows.step f st url hs
        simp only [reportOf, he] at hstep
        refine ⟨[url], hstep, ?_, fun _ _ => rfl⟩
        intro v hv
        have hvu : v = url := by simpa using hv
        refine ⟨0, by simpa using hd, by simp [reachLayer, hvu], ?_,
          [url], simpleChain_single f url v hvu, rfl, by simp⟩
        intro _ w hw
        rw [hvu, links_of_err he] at hw
        cases hw
      | none =>
        rw [Crawl_ok hd hs he]
        have hstep := Grows.step f st url hs
        simp only [reportOf, he] at hstep
        obtain ⟨G, hG⟩ := crawlAll_loopOk f (depth - 1)
          (fun u st1 => ih u (depth - 1) st1 (by omega)) (f.Fetch url).urls
          ⟨st.set.InsertValue url,
           st.trace ++ [Event.fetch url, Event.printFound url (f.Fetch url).body]⟩
        refine ⟨[url] ++ G, hstep.trans hG.grows, ?_, fun _ _ => rfl⟩
        intro v hv
        rcases List.mem_append.1 hv with h | h
        · have hvu : v = url := by simpa using h
          refine ⟨0, by simpa using hd, by simp [reachLayer, hvu], ?_,
            [url], simpleChain_single f url v hvu, rfl, by simp⟩
          intro hlt w hw
          rw [hvu, links_of_ok he] at hw
          exact hG.marked (by push_cast at hlt; omega) w hw
        · obtain ⟨u, hu, m, hm, hr, hcl, p, hp, hlen, hsub⟩ := hG.near v h
          have hnew : url ∉ G := by
            intro hmem
            have := hG.grows.fresh url hmem
            simp [ConcurrentSet.InsertValue] at this
          refine ⟨m + 1, by push_cast; omega, reachLayer_step ?_ hr, ?_,
            url :: p, simpleChain_cons ⟨he, hu⟩ hp (fun hmem => hnew (hsub url hmem)),
            by simp [hlen], ?_⟩
          · rw [links_of_ok he]; exact hu
          · intro hlt
            exact hcl (by push_cast at hlt; omega)
          · intro x hx
            rcases List.mem_cons.1 hx with rfl | hx
            · simp
            · exact List.mem_append_right _ (hsub x hx)

theorem Crawl_callOk (f : Fetcher) (url : String) (depth : Int) (st : State) :
    ∃ F, CallOk f url depth st (Crawl url depth f st) F :=
  Crawl_callOk_aux f depth.toNat url depth st rfl

theorem crawlAll_ok (f : Fetcher) (urls : List String) (depth : Int) (st : State) :
    ∃ F, LoopOk f urls depth st (crawlAll urls depth f st) F :=
  crawlAll_loopOk f depth (fun u st1 => Crawl_callOk f u depth st1) urls st

/-! ## The nesting counter -/

theorem foldlM_some_of_forall {σ α : Type} (g : σ → α → Option σ)
    (H : ∀ s a, ∃ s', g s a = some s') : ∀ (l : List α) (s : σ), ∃ s', l.foldlM g s = some s' := by
  intro l
  induction l with
  | nil => intro s; exact ⟨s, rfl⟩
  | cons a l ih =>
    intro s
    obtain ⟨s1, h1⟩ := H s a
    obtain ⟨s2, h2⟩ := ih s1
    exact ⟨s2, by simp [List.foldlM_cons, h1, h2]⟩

theorem foldlM_eq_foldl {σ α : Type} (g : σ → α → Option σ) (h : σ → α → σ)
    (H : ∀ s a, g s a = some (h s a)) : ∀ (l : List α) (s : σ), l.foldlM g s = some (l.foldl h s) := by
  intro l
  induction l with
  | nil => intro s; rfl
  | cons a l ih =>
    intro s
    simp [List.foldlM_cons, H, ih]

/-- With any membership test, a counter of `depth.toNat` is enough. -/
theorem CrawlFuel_some (seen : ConcurrentSet → String → Bool) (f : Fetcher) :
    ∀ (n : Nat) (url : String) (depth : Int) (st : State), depth.toNat ≤ n →
      ∃ st', CrawlFuel seen n url depth f st = some st' := by
  intro n
  induction n with
  | zero =>
    intro url depth st hn
    have hd : depth ≤ 0 := by omega
    exact ⟨st, by simp [CrawlFuel, hd]⟩
  | succ n ih =>
    intro url depth st hn
    by_cases hd : depth ≤ 0
    · exact ⟨st, by simp [CrawlFuel, hd]⟩
    · cases hs : seen st.set url with
      | true => exact ⟨st, by simp [CrawlFuel, hd, hs]⟩
      | false =>
        cases he : (f.Fetch url).err with
        | some e =>
          exact ⟨_, by simp only [CrawlFuel, hd, hs, he]; rfl⟩
        | none =>
          obtain ⟨st', h'⟩ := foldlM_some_of_forall
            (fun st u => CrawlFuel seen n u (depth - 1) f st)
            (fun s a => ih a (depth - 1) s (by omega)) (f.Fetch url).urls
            ⟨st.set.InsertValue url,
             st.trace ++ [Event.fetch url] ++ [Event.printFound url (f.Fetch url).body]⟩
          exact ⟨st', by simp only [CrawlFuel, hd, hs, he]; simpa using h'⟩

/-- With the membership test of the source, the counted body computes `Crawl`. -/
theorem CrawlFuel_eq_Crawl (f : Fetcher) :
    ∀ (n : Nat) (url : String) (depth : Int) (st : State), depth.toNat ≤ n →
      CrawlFuel seenInSet n url depth f st = some (Crawl url depth f st) := by
  intro n
  induction n with
  | zero =>
    intro url depth st hn
    have hd : depth ≤ 0 := by omega
    simp [CrawlFuel, hd, Crawl_nonpos hd]
  | succ n ih =>
    intro url depth st hn
    by_cases hd : depth ≤ 0
    · simp [CrawlFuel, hd, Crawl_nonpos hd]
    · have hd' : 0 < depth := by omega
      cases hs : st.set.s url with
      | some b =>
        rw [Crawl_seen (by simp [hs])]
        simp [CrawlFuel, hd, seenInSet, ConcurrentSet.GetValue, hs]
      | none =>
        cases he : (f.Fetch url).err with
        | some e =>
          rw [Crawl_err hd' hs he]
          simp [CrawlFuel, hd, seenInSet, ConcurrentSet.GetValue, hs, he]
        | none =>
          rw [Crawl_ok hd' hs he]
          have h' := foldlM_eq_foldl
            (fun st u => CrawlFuel seenInSet n u (depth - 1) f st)
            (fun st u => Crawl u (depth - 1) f st)
            (fun s a => ih a (depth - 1) s (by omega)) (f.Fetch url).urls
            ⟨st.set.InsertValue url,
             st.trace ++ [Event.fetch url, Event.printFound url (f.Fetch url).body]⟩
          simp only [CrawlFuel, hd, seenInSet, ConcurrentSet.GetValue, hs, he]
          simpa [crawlAll] using h'

/-- The counter is really used: on the cycle `R → A → R` with budget 2, two fetching
calls are nested and a counter of 1 runs out. -/
theorem CrawlFuel_runs_out :
    (CrawlFuel seenInSet 1 "R" 2 cycleFetcher ⟨ConcurrentSet.make, []⟩).isNone = true := by
  decide

/-- Reading off the trace of `Crawl` from a run of the counted body. -/
theorem Crawl_trace_of_fuel {url : String} {depth : Int} {f : Fetcher} {st : State}
    {T : List Event}
    (h : (CrawlFuel seenInSet depth.toNat url depth f st).map State.trace = some T) :
    (Crawl url depth f st).trace = T := by
  rw [CrawlFuel_eq_Crawl f depth.toNat url depth st (le_refl _)] at h
  simpa using h

/-! ## Reading the trace -/

theorem fetched_append (a b : List Event) : fetched (a ++ b) = fetched a ++ fetched b := by
  induction a with
  | nil => rfl
  | cons e a ih => cases e <;> simp [fetched, ih]

theorem reports_append (a b : List Event) : reports (a ++ b) = reports a ++ reports b := by
  induction a with
  | nil => rfl
  | cons e a ih => cases e <;> simp [reports, ih]

theorem fetched_blocks (f : Fetcher) (F : List String) : fetched (F.flatMap (block f)) = F := by
  induction F with
  | nil => rfl
  | cons u F ih =>
    rw [List.flatMap_cons, fetched_append, ih]
    simp only [block, reportOf]
    cases (f.Fetch u).err <;> simp [fetched]

theorem reports_blocks (f : Fetcher) (F : List String) :
    reports (F.flatMap (block f)) = F.map (reportOf f) := by
  induction F with
  | nil => rfl
  | cons u F ih =>
    rw [List.flatMap_cons, reports_append, ih, List.map_cons]
    have h : reports (block f u) = [reportOf f u] := by
      simp only [block, reportOf]
      cases (f.Fetch u).err <;> simp [reports]
    rw [h]; rfl

theorem mem_links {f : Fetcher} {a b : String} : b ∈ links f a ↔ Link f a b := by
  unfold links Link
  cases h : (f.Fetch a).err <;> simp

/-- A member of the `m`-th layer is the end of a chain of `m` links from the root. -/
theorem chain_of_reachLayer (f : Fetcher) (root : String) :
    ∀ (m : Nat) (v : String), v ∈ reachLayer f root m →
      ∃ p : List String, p.head? = some root ∧ p.getLast? = some v ∧ p.length = m + 1 ∧
        List.Chain' (Link f) p := by
  intro m
  induction m with
  | zero =>
    intro v hv
    have : v = root := by simpa [reachLayer] using hv
    subst this
    exact ⟨[v], rfl, rfl, rfl, List.chain'_singleton _⟩
  | succ m ih =>
    intro v hv
    obtain ⟨u, hu, huv⟩ := List.mem_flatMap.1 hv
    obtain ⟨p, hhead, hlast, hlen, hchain⟩ := ih u hu
    have hne : p ≠ [] := by
      intro h; rw [h] at hlen; simp at hlen
    refine ⟨p ++ [v], ?_, List.getLast?_concat p, by simp [hlen], ?_⟩
    · rw [List.head?_append_of_ne_nil _ hne]; exact hhead
    · refine List.Chain'.append hchain (List.chain'_singleton _) ?_
      intro x hx y hy
      have hx' : x = u := by
        rw [hlast] at hx; exact (Option.mem_some_iff.1 hx).symm
      have hy' : y = v := by
        simpa using hy.symm
      subst hx' hy'
      exact mem_links.1 huv

/-- The summary of a call started with an empty log, with the fetched list read
off the final log. -/
theorem Crawl_from_empty_log (f : Fetcher) (root : String) (d : Int) (set : ConcurrentSet) :
    CallOk f root d ⟨set, []⟩ (Crawl root d f ⟨set, []⟩)
      (fetched (Crawl root d f ⟨set, []⟩).trace) := by
  obtain ⟨F, hF⟩ := Crawl_callOk f root d ⟨set, []⟩
  have : fetched (Crawl root d f ⟨set, []⟩).trace = F := by
    rw [hF.grows.trace_eq]
    simpa using fetched_blocks f F
  rw [this]; exact hF

theorem getValue_false_iff (set : ConcurrentSet) (k : String) :
    (set.GetValue k).1 = false ↔ set.s k = none := by
  simp [ConcurrentSet.GetValue]

/-! ## Schedules -/

theorem step_zero (f : Fetcher) (t : Task) (st : State) (rest : List Task) :
    step f 0 ⟨st, t :: rest⟩ = ⟨(advance f t st).1, (advance f t st).2 ++ rest⟩ := by
  simp [step]

theorem runSched_append (f : Fetcher) (a b : List Nat) (c : Config) :
    runSched f (a ++ b) c = runSched f b (runSched f a c) := by
  simp [runSched, List.foldl_append]

theorem runSched_replicate_add (f : Fetcher) (a b : Nat) (c : Config) :
    runSched f (List.replicate (a + b) 0) c =
      runSched f (List.replicate b 0) (runSched f (List.replicate a 0) c) := by
  rw [List.replicate_add, runSched_append]

theorem runSched_cons (f : Fetcher) (i : Nat) (a : List Nat) (c : Config) :
    runSched f (i :: a) c = runSched f a (step f i c) := rfl

/-- When every call at budget `d` is a run of the first goroutine of the pool, so is
the loop over a neighbour list. -/
theorem runSched_loop (f : Fetcher) (d : Int)
    (H : ∀ (url : String) (st : State) (rest : List Task), ∃ n,
      runSched f (List.replicate n 0) ⟨st, Task.start url d :: rest⟩ =
        ⟨Crawl url d f st, rest⟩) :
    ∀ (urls : List String) (st : State) (rest : List Task), ∃ n,
      runSched f (List.replicate n 0) ⟨st, urls.map (fun u => Task.start u d) ++ rest⟩ =
        ⟨crawlAll urls d f st, rest⟩ := by
  intro urls
  induction urls with
  | nil => intro st rest; exact ⟨0, rfl⟩
  | cons u us ih =>
    intro st rest
    obtain ⟨a, ha⟩ := H u st (us.map (fun u => Task.start u d) ++ rest)
    obtain ⟨b, hb⟩ := ih (Crawl u d f st) rest
    refine ⟨a + b, ?_⟩
    rw [runSched_replicate_add]
    simp only [List.map_cons, List.cons_append]
    rw [ha, hb]
    rfl

theorem runSched_strict_aux (f : Fetcher) :
    ∀ (k : Nat) (url : String) (depth : Int) (st : State) (rest : List Task),
      depth.toNat = k → ∃ n,
        runSched f (List.replicate n 0) ⟨st, Task.start url depth :: rest⟩ =
          ⟨Crawl url depth f st, rest⟩ := by
  intro k
  induction k with
  | zero =>
    intro url depth st rest hk
    have hd : depth ≤ 0 := by omega
    refine ⟨1, ?_⟩
    rw [Crawl_nonpos hd]
    simp [runSched, step, advance, hd]
  | succ k ih =>
    intro url depth st rest hk
    have hd : 0 < depth := by omega
    have hd' : ¬ depth ≤ 0 := by omega
    cases hs : st.set.s url with
    | some b =>
      refine ⟨1, ?_⟩
      rw [Crawl_seen (by simp [hs])]
      simp [runSched, step, advance, hd', ConcurrentSet.GetValue, hs]
    | none =>
      have h1 : step f 0 ⟨st, Task.start url depth :: rest⟩ =
          ⟨st, Task.passed url depth :: rest⟩ := by
        simp [step, advance, hd', ConcurrentSet.GetValue, hs]
      cases he : (f.Fetch url).err with
      | some e =>
        refine ⟨2, ?_⟩
        rw [Crawl_err hd hs he]
        show runSched f [0, 0] _ = _
        rw [runSched_cons, h1]
        simp [runSched, step, advance, he]
      | none =>
        obtain ⟨n, hn⟩ := runSched_loop f (depth - 1)
          (fun u st1 rest1 => ih u (depth - 1) st1 rest1 (by omega)) (f.Fetch url).urls
          ⟨st.set.InsertValue url,
           st.trace ++ [Event.fetch url, Event.printFound url (f.Fetch url).body]⟩ rest
        refine ⟨2 + n, ?_⟩
        rw [Crawl_ok hd hs he, runSched_replicate_add, ← hn]
        congr 1
        show runSched f [0, 0] _ = _
        rw [runSched_cons, h1]
        simp [runSched, step, advance, he]

/-- The function `Crawl` is the run in which the first goroutine of the pool always
runs next: started on a pool whose first goroutine is at the top of `Crawl(url, depth)`,
that run reaches the state `Crawl url depth` with the rest of the pool untouched. -/
theorem runSched_strict (f : Fetcher) (url : String) (depth : Int) (st : State)
    (rest : List Task) :
    ∃ n, runSched f (List.replicate n 0) ⟨st, Task.start url depth :: rest⟩ =
      ⟨Crawl url depth f st, rest⟩ :=
  runSched_strict_aux f depth.toNat url depth st rest rfl

/-! ## C1: depth bound -/

/-- C1: every identifier on which `Crawl` calls `Fetch` is the end of a chain of fewer
than `d` neighbour links from the root (the root itself, with no link, included), each
link taken from the list of a successful fetch; an identifier with no chain of at most
`d` links is not fetched; with budget 1 nothing but the root is fetched, so a neighbour of a
neighbour of the root is not fetched (unless it is the root itself, which no link is
needed to reach); with `d ≤ 0` nothing is fetched. -/
theorem depth_bound (f : Fetcher) (root : String) (d : Int) (set : ConcurrentSet) :
    (∀ v ∈ fetched (Crawl root d f ⟨set, []⟩).trace,
        ∃ m : Nat, (m : Int) < d ∧ v ∈ reachLayer f root m) ∧
    (∀ v ∈ fetched (Crawl root d f ⟨set, []⟩).trace,
        ∃ p : List String, p.head? = some root ∧ p.getLast? = some v ∧
          (p.length : Int) ≤ d ∧ List.Chain' (Link f) p) ∧
    (∀ v, (∀ m : Nat, (m : Int) ≤ d → v ∉ reachLayer f root m) →
        v ∉ fetched (Crawl root d f ⟨set, []⟩).trace) ∧
    (d = 1 → ∀ v ∈ fetched (Crawl root d f ⟨set, []⟩).trace, v = root) ∧
    (d = 1 → ∀ a ∈ links f root, ∀ b ∈ links f a, b ≠ root →
        b ∉ fetched (Crawl root d f ⟨set, []⟩).trace) ∧
    (d ≤ 0 → fetched (Crawl root d f ⟨set, []⟩).trace = []) := by
  have H := Crawl_from_empty_log f root d set
  have h1 : d = 1 → ∀ v ∈ fetched (Crawl root d f ⟨set, []⟩).trace, v = root := by
    intro hd v hv
    obtain ⟨m, hm, hr, _⟩ := H.near v hv
    have : m = 0 := by omega
    subst this
    simpa [reachLayer] using hr
  refine ⟨?_, ?_, ?_, h1, ?_, ?_⟩
  · intro v hv
    obtain ⟨m, hm, hr, _⟩ := H.near v hv
    exact ⟨m, hm, hr⟩
  · intro v hv
    obtain ⟨m, hm, hr, _⟩ := H.near v hv
    obtain ⟨p, hh, hl, hlen, hc⟩ := chain_of_reachLayer f root m v hr
    exact ⟨p, hh, hl, by rw [hlen]; push_cast; omega, hc⟩
  · intro v hv hmem
    obtain ⟨m, hm, hr, _⟩ := H.near v hmem
    exact hv m (by omega) hr
  · intro hd a _ b _ hb hmem
    exact hb (h1 hd b hmem)
  · intro hd
    rw [Crawl_nonpos hd]; rfl

/-- C1 at concrete inputs: the cycle `R → A → R` with budget 1 and with budget 0, and
an identifier two links away from the root with budget 1. -/
theorem depth_bound_witness :
    (∀ v ∈ fetched (Crawl "R" 1 cycleFetcher ⟨ConcurrentSet.make, []⟩).trace, v = "R") ∧
    "C" ∉ fetched (Crawl "R" 1 shortcutFetcher ⟨ConcurrentSet.make, []⟩).trace ∧
    fetched (Crawl "R" 0 cycleFetcher ⟨ConcurrentSet.make, []⟩).trace = [] :=
  ⟨(depth_bound cycleFetcher "R" 1 ConcurrentSet.make).2.2.2.1 rfl,
   (depth_bound shortcutFetcher "R" 1 ConcurrentSet.make).2.2.1 "C"
     (fun m hm => by
        have hm' : m = 0 ∨ m = 1 := by omega
        rcases hm' with rfl | rfl <;> decide),
   (depth_bound cycleFetcher "R" 0 ConcurrentSet.make).2.2.2.2.2 (le_refl 0)⟩

/-! ## C2: visited once -/

/-- C2: `Crawl` calls `Fetch` at most once on any identifier, never on an identifier
that is in the initial set, and, started from the empty set, at most as many times as
there are distinct identifiers joined to the root by fewer than `d` links. -/
theorem visited_once (f : Fetcher) (root : String) (d : Int) (set : ConcurrentSet) :
    (fetched (Crawl root d f ⟨set, []⟩).trace).Nodup ∧
    (∀ v, (fetched (Crawl root d f ⟨set, []⟩).trace).count v ≤ 1) ∧
    (∀ v ∈ fetched (Crawl root d f ⟨set, []⟩).trace, (set.GetValue v).1 = false) ∧
    (fetched (Crawl root d f ⟨ConcurrentSet.make, []⟩).trace).length ≤
      (reachWithin f root d).dedup.length := by
  have H := Crawl_from_empty_log f root d set
  refine ⟨H.grows.nodup, fun v => List.nodup_iff_count_le_one.1 H.grows.nodup v, ?_, ?_⟩
  · intro v hv
    exact (getValue_false_iff set v).2 (H.grows.fresh v hv)
  · have H0 := Crawl_from_empty_log f root d ConcurrentSet.make
    apply List.Subperm.length_le
    apply List.subperm_of_subset H0.grows.nodup
    intro v hv
    obtain ⟨m, hm, hr, _⟩ := H0.near v hv
    rw [List.mem_dedup]
    exact List.mem_flatMap.2 ⟨m, List.mem_range.2 (by omega), hr⟩

/-- C2 at a concrete input: the cycle `R → A → R` with budget 5 and `A` already in the
set; `Fetch` is called once, on `R`. -/
theorem visited_once_witness :
    fetched (Crawl "R" 5 cycleFetcher ⟨ConcurrentSet.make.InsertValue "A", []⟩).trace = ["R"] ∧
    ((ConcurrentSet.make.InsertValue "A").GetValue "R").1 = false ∧
    (fetched (Crawl "R" 5 cycleFetcher ⟨ConcurrentSet.make, []⟩).trace).length ≤ 2 := by
  have hT : fetched (Crawl "R" 5 cycleFetcher
      ⟨ConcurrentSet.make.InsertValue "A", []⟩).trace = ["R"] := by
    rw [Crawl_trace_of_fuel (T := [Event.fetch "R", Event.printFound "R" "r"]) (by decide)]
    rfl
  exact ⟨hT,
    (visited_once cycleFetcher "R" 5 (ConcurrentSet.make.InsertValue "A")).2.2.1 "R"
      (by rw [hT]; decide),
    le_trans (visited_once cycleFetcher "R" 5 ConcurrentSet.make).2.2.2 (by decide)⟩

/-! ## Chains without repetition -/

/-- C4: when `Fetch(A)` fails, a call of `Crawl` on an unvisited `A` with a positive
budget calls `Fetch` on `A` only and returns, having marked `A` and printed the error;
every identifier fetched in a traversal from any root is the end of a chain of links
from the root on which `A` is never the source of a link; and a parent whose successful
fetch lists `A` and an unvisited `B` still fetches `B` when its budget is at least 2. -/
theorem error_isolation (f : Fetcher) (A : String) (e : GoError)
    (hA : (f.Fetch A).err = some e) :
    (∀ (d : Int) (set : ConcurrentSet), 0 < d → (set.GetValue A).1 = false →
        Crawl A d f ⟨set, []⟩ =
          ⟨set.InsertValue A, [Event.fetch A, Event.printErr e]⟩) ∧
    (∀ (root : String) (d : Int) (set : ConcurrentSet),
        ∀ v ∈ fetched (Crawl root d f ⟨set, []⟩).trace,
          ∃ p : List String, p.head? = some root ∧ p.getLast? = some v ∧
            List.Chain' (fun a b => a ≠ A ∧ b ∈ (f.Fetch a).urls) p) ∧
    (∀ (P B : String) (d : Int) (set : ConcurrentSet), 2 ≤ d →
        (set.GetValue P).1 = false → (f.Fetch P).err = none →
        A ∈ (f.Fetch P).urls → B ∈ (f.Fetch P).urls → (set.GetValue B).1 = false →
        B ∈ fetched (Crawl P d f ⟨set, []⟩).trace) := by
  refine ⟨?_, ?_, ?_⟩
  · intro d set hd hs
    have := @Crawl_err A d f ⟨set, []⟩ e hd
      ((getValue_false_iff set A).1 hs) hA
    simpa using this
  · intro root d set v hv
    obtain ⟨m, _, hr, _⟩ := (Crawl_from_empty_log f root d set).near v hv
    obtain ⟨p, hh, hl, _, hc⟩ := chain_of_reachLayer f root m v hr
    refine ⟨p, hh, hl, hc.imp ?_⟩
    intro a b hab
    refine ⟨?_, hab.2⟩
    intro haA
    have hok : (f.Fetch a).err = none := hab.1
    rw [haA, hA] at hok
    cases hok
  · intro P B d set hd hP hok _ hB hBs
    have H := Crawl_from_empty_log f P d set
    have hrun := @Crawl_ok P d f ⟨set, []⟩ (by omega)
      ((getValue_false_iff set P).1 hP) hok
    obtain ⟨G, hG⟩ := crawlAll_ok f (f.Fetch P).urls (d - 1)
      ⟨set.InsertValue P, [] ++ [Event.fetch P, Event.printFound P (f.Fetch P).body]⟩
    have hmark := hG.marked (by omega) B hB
    rw [← hrun, H.grows.set_eq] at hmark
    by_contra hnot
    rw [if_neg hnot, (getValue_false_iff set B).1 hBs] at hmark
    simp at hmark

/-- C4 at a concrete input: `P → A, B` where `Fetch(A)` fails (and names `X`). -/
theorem error_isolation_witness :
    (siblingFetcher.Fetch "A").err = some "down" ∧
    Crawl "A" 2 siblingFetcher ⟨ConcurrentSet.make, []⟩ =
      ⟨ConcurrentSet.make.InsertValue "A", [Event.fetch "A", Event.printErr "down"]⟩ ∧
    "B" ∈ fetched (Crawl "P" 3 siblingFetcher ⟨ConcurrentSet.make, []⟩).trace ∧
    "X" ∉ fetched (Crawl "P" 3 siblingFetcher ⟨ConcurrentSet.make, []⟩).trace :=
  ⟨by decide,
   (error_isolation siblingFetcher "A" "down" (by decide)).1 2 ConcurrentSet.make
     (by decide) (by decide),
   (error_isolation siblingFetcher "A" "down" (by decide)).2.2 "P" "B" 3 ConcurrentSet.make
     (by decide) (by decide) (by decide) (by decide) (by decide) (by decide),
   by
     rw [Crawl_trace_of_fuel (T := [Event.fetch "P", Event.printFound "P" "p",
       Event.fetch "A", Event.printErr "down", Event.fetch "B", Event.printFound "B" "b"])
       (by decide)]
     decide⟩

/-! ## C5: the program's own run -/

/-- C6, as the claim states it, fails: a fetcher that fails with the same error on
every identifier makes `Crawl` print the same report for `A` and for `B`, so no reading
of a report gives back the identifier that was being fetched. -/
theorem error_report_counterexample :
    (failingFetcher.Fetch "A").err = some "boom" ∧
    (failingFetcher.Fetch "B").err = some "boom" ∧
    reports (Crawl "A" 1 failingFetcher ⟨ConcurrentSet.make, []⟩).trace =
      [Event.printErr "boom"] ∧
    reports (Crawl "B" 1 failingFetcher ⟨ConcurrentSet.make, []⟩).trace =
      [Event.printErr "boom"] ∧
    ¬ ∃ ident : Event → String, ∀ (f : Fetcher) (url : String) (e : GoError),
        (f.Fetch url).err = some e →
        ∀ r ∈ reports (Crawl url 1 f ⟨ConcurrentSet.make, []⟩).trace, ident r = url := by
  have hA : reports (Crawl "A" 1 failingFetcher ⟨ConcurrentSet.make, []⟩).trace =
      [Event.printErr "boom"] := by
    rw [Crawl_trace_of_fuel (T := [Event.fetch "A", Event.printErr "boom"]) (by decide)]
    rfl
  have hB : reports (Crawl "B" 1 failingFetcher ⟨ConcurrentSet.make, []⟩).trace =
      [Event.printErr "boom"] := by
    rw [Crawl_trace_of_fuel (T := [Event.fetch "B", Event.printErr "boom"]) (by decide)]
    rfl
  refine ⟨rfl, rfl, hA, hB, ?_⟩
  rintro ⟨ident, h⟩
  have h1 := h failingFetcher "A" "boom" rfl (Event.printErr "boom") (by rw [hA]; simp)
  have h2 := h failingFetcher "B" "boom" rfl (Event.printErr "boom") (by rw [hB]; simp)
  rw [h1] at h2
  exact absurd h2 (by decide)

/-- C6 (amended): the reports of a traversal are, in fetch order, one per identifier
fetched; the report for an identifier whose `Fetch` returns the error `e` is
`fmt.Println("err: ", e)`, which carries the error value and nothing else; the
identifier is in the output only as far as the error itself names it, as the error of
`fakeFetcher` does. -/
theorem error_report (f : Fetcher) (root : String) (d : Int) (set : ConcurrentSet) :
    reports (Crawl root d f ⟨set, []⟩).trace =
      (fetched (Crawl root d f ⟨set, []⟩).trace).map (reportOf f) ∧
    (∀ (u : String) (e : GoError), (f.Fetch u).err = some e →
        reportOf f u = Event.printErr e) ∧
    (∀ (u : String) (e : GoError), u ∈ fetched (Crawl root d f ⟨set, []⟩).trace →
        (f.Fetch u).err = some e →
        Event.printErr e ∈ reports (Crawl root d f ⟨set, []⟩).trace) ∧
    (∀ (t : fakeFetcher) (u : String) (e : GoError), (t.Fetch u).err = some e →
        e = "not found: " ++ u) := by
  have H := Crawl_from_empty_log f root d set
  have hrep : reports (Crawl root d f ⟨set, []⟩).trace =
      (fetched (Crawl root d f ⟨set, []⟩).trace).map (reportOf f) := by
    conv_lhs => rw [H.grows.trace_eq]
    simpa using reports_blocks f _
  have hof : ∀ (u : String) (e : GoError), (f.Fetch u).err = some e →
      reportOf f u = Event.printErr e := by
    intro u e he
    simp [reportOf, he]
  refine ⟨hrep, hof, ?_, ?_⟩
  · intro u e hu he
    rw [hrep, ← hof u e he]
    exact List.mem_map_of_mem _ hu
  · intro t u e he
    unfold fakeFetcher.Fetch at he
    cases hl : List.lookup u t with
    | some res => rw [hl] at he; cases he
    | none =>
      rw [hl] at he
      exact (Option.some.inj he).symm

/-- C6 (amended) at a concrete input: the failing root `A`. -/
theorem error_report_witness :
    reportOf failingFetcher "A" = Event.printErr "boom" ∧
    (fakeFetcher.Fetch fetcher "https://golang.org/cmd/").err =
      some "not found: https://golang.org/cmd/" ∧
    "not found: https://golang.org/cmd/" = "not found: " ++ "https://golang.org/cmd/" :=
  ⟨(error_report failingFetcher "A" 1 ConcurrentSet.make).2.1 "A" "boom" rfl,
   by decide,
   (error_report failingFetcher "A" 1 ConcurrentSet.make).2.2.2 fetcher
     "https://golang.org/cmd/" "not found: https://golang.org/cmd/" (by decide)⟩

/-! ## C7: termination -/

/-- C7: for every fetcher, root, integer budget `d`, state and membership test
(the one of the source or any other, such as one that never finds anything), the body
of `Crawl` returns when at most `max d 0` fetching calls may be nested, and with the
membership test of the source what it returns is the value of `Crawl`, which is defined
by recursion on the budget alone. -/
theorem cycle_termination (seen : ConcurrentSet → String → Bool) (f : Fetcher)
    (url : String) (d : Int) (st : State) :
    (∃ st', CrawlFuel seen d.toNat url d f st = some st') ∧
    CrawlFuel seenInSet d.toNat url d f st = some (Crawl url d f st) ∧
    (d.toNat : Int) = max d 0 :=
  ⟨CrawlFuel_some seen f d.toNat url d st (le_refl _),
   CrawlFuel_eq_Crawl f d.toNat url d st (le_refl _),
   Int.toNat_eq_max d⟩

/-! ## C8: the set -/

theorem getValue_insertAll (us : List String) :
    ∀ (s : ConcurrentSet) (a : String),
      ((insertAll us s).GetValue a).1 = true ↔ a ∈ us ∨ (s.GetValue a).1 = true := by
  induction us with
  | nil => intro s a; simp [insertAll]
  | cons u us ih =>
    intro s a
    have hstep : insertAll (u :: us) s = insertAll us (s.InsertValue u) := rfl
    rw [hstep, ih]
    by_cases h : a = u
    · simp [ConcurrentSet.GetValue, ConcurrentSet.InsertValue, h]
    · simp [ConcurrentSet.GetValue, ConcurrentSet.InsertValue, h]

/-- C8: `GetValue` returns the set it was given; on the empty set of `main` it answers
false; on a set built from the empty one by insertions it answers true exactly for the
inserted identifiers; after `InsertValue(a)` it answers true for `a` and, for `b ≠ a`,
what it answered before; and inserting `a` twice gives the same set as inserting it once. -/
theorem visited_set_contract (s : ConcurrentSet) (a b : String) (us : List String) :
    (s.GetValue a).2 = s ∧
    (ConcurrentSet.make.GetValue a).1 = false ∧
    (((insertAll us ConcurrentSet.make).GetValue a).1 = true ↔ a ∈ us) ∧
    ((s.InsertValue a).GetValue a).1 = true ∧
    (b ≠ a → ((s.InsertValue a).GetValue b).1 = (s.GetValue b).1) ∧
    (s.InsertValue a).InsertValue a = s.InsertValue a := by
  refine ⟨rfl, rfl, ?_, ?_, ?_, ?_⟩
  · rw [getValue_insertAll]
    simp [ConcurrentSet.GetValue, ConcurrentSet.make]
  · simp [ConcurrentSet.GetValue, ConcurrentSet.InsertValue]
  · intro h
    simp [ConcurrentSet.GetValue, ConcurrentSet.InsertValue, h]
  · simp only [ConcurrentSet.InsertValue]
    congr 1
    funext k
    by_cases h : k = a <;> simp [h]

/-- C8 at a concrete input: after inserting `A` and `B` into the empty set. -/
theorem visited_set_contract_witness :
    "B" ≠ "A" ∧
    ((ConcurrentSet.make.InsertValue "A").GetValue "B").1 =
      (ConcurrentSet.make.GetValue "B").1 ∧
    (((insertAll ["A", "B"] ConcurrentSet.make).GetValue "B").1 = true ↔
      "B" ∈ ["A", "B"]) :=
  ⟨by decide,
   (visited_set_contract ConcurrentSet.make "A" "B" []).2.2.2.2.1 (by decide),
   (visited_set_contract ConcurrentSet.make "B" "A" ["A", "B"]).2.2.1⟩

/-! ## C10: growth of the set -/

/-- C10: when `Crawl` returns, the map is the initial map with `true` stored for every
identifier on which `Fetch` was called (whether the fetch succeeded or failed) and is
otherwise as it was; so membership is that of the initial set or of the fetched list,
no identifier has left the set, and the whole state is unchanged when `d ≤ 0` or the root
is already a member. -/
theorem visited_set_growth (f : Fetcher) (root : String) (d : Int) (set : ConcurrentSet) :
    (∀ k, (Crawl root d f ⟨set, []⟩).set.s k =
        if k ∈ fetched (Crawl root d f ⟨set, []⟩).trace then some true else set.s k) ∧
    (∀ k, ((Crawl root d f ⟨set, []⟩).set.GetValue k).1 = true ↔
        (set.GetValue k).1 = true ∨ k ∈ fetched (Crawl root d f ⟨set, []⟩).trace) ∧
    (∀ k, (set.GetValue k).1 = true → ((Crawl root d f ⟨set, []⟩).set.GetValue k).1 = true) ∧
    (∀ (k : String) (e : GoError), k ∈ fetched (Crawl root d f ⟨set, []⟩).trace →
        (f.Fetch k).err = some e → ((Crawl root d f ⟨set, []⟩).set.GetValue k).1 = true) ∧
    (∀ st : State, d ≤ 0 ∨ (st.set.GetValue root).1 = true → Crawl root d f st = st) := by
  have H := Crawl_from_empty_log f root d set
  have hiff : ∀ k, ((Crawl root d f ⟨set, []⟩).set.GetValue k).1 = true ↔
      (set.GetValue k).1 = true ∨ k ∈ fetched (Crawl root d f ⟨set, []⟩).trace := by
    intro k
    simp only [ConcurrentSet.GetValue]
    rw [H.grows.set_eq]
    by_cases hk : k ∈ fetched (Crawl root d f ⟨set, []⟩).trace <;> simp [hk]
  refine ⟨H.grows.set_eq, hiff, ?_, ?_, ?_⟩
  · intro k hk
    exact (hiff k).2 (Or.inl hk)
  · intro k _ hk _
    exact (hiff k).2 (Or.inr hk)
  · intro st h
    rcases h with h | h
    · exact Crawl_nonpos h
    · exact Crawl_seen (by simpa [ConcurrentSet.GetValue] using h)

/-- C10 at concrete inputs: a failed identifier stays marked; a member root and a
budget of 0 leave the state as it is. -/
theorem visited_set_growth_witness :
    ((Crawl "A" 1 failingFetcher ⟨ConcurrentSet.make, []⟩).set.GetValue "A").1 = true ∧
    Crawl "A" 0 failingFetcher ⟨ConcurrentSet.make, []⟩ = ⟨ConcurrentSet.make, []⟩ ∧
    Crawl "A" 2 failingFetcher ⟨ConcurrentSet.make.InsertValue "A", []⟩ =
      ⟨ConcurrentSet.make.InsertValue "A", []⟩ :=
  ⟨(visited_set_growth failingFetcher "A" 1 ConcurrentSet.make).2.2.2.1 "A" "boom"
     (by
        rw [Crawl_trace_of_fuel (T := [Event.fetch "A", Event.printErr "boom"]) (by decide)]
        decide)
     rfl,
   (visited_set_growth failingFetcher "A" 0 ConcurrentSet.make).2.2.2.2
     ⟨ConcurrentSet.make, []⟩ (Or.inl (le_refl 0)),
   (visited_set_growth failingFetcher "A" 2 ConcurrentSet.make).2.2.2.2
     ⟨ConcurrentSet.make.InsertValue "A", []⟩ (Or.inr (by decide))⟩

end WebCrawler
